import Mathlib

/-!
# Verification of `diffusion_policy/dataset/sapien_dataset.py`

A shallow embedding of the conversion / caching / normalization pipeline of
`sapien_dataset.py`, together with theorems settling the specification claims.

Arrays whose operations only touch the last axis are modelled as
`List (List α)` (a list of last-axis rows); numpy `reshape(-1, k)` becomes
re-chunking of the row-major flattening.  Machine floats are abstracted by an
arbitrary scalar type together with an explicit cast function (`astype` is a
pointwise map); exact statistics arithmetic uses `ℚ`.
-/

set_option autoImplicit false

namespace SapienDataset

/- ===================== shared list helpers ===================== -/

/-- Split a flat list into consecutive chunks of size `k` (row-major reshape).
Returns `[]` when `k = 0` or the list is empty. -/
def chunkList {α : Type} (k : Nat) : List α → List (List α)
  | [] => []
  | x :: xs =>
    if _h : k = 0 then []
    else (x :: xs).take k :: chunkList k ((x :: xs).drop k)
termination_by l => l.length
decreasing_by
  simp [List.length_drop]
  omega

/-- `np.max` over the last axis: `none` on an empty array (numpy raises). -/
def npAmax (l : List ℚ) : Option ℚ :=
  match l with
  | [] => none
  | x :: xs => some (xs.foldl max x)

/- ===================== Cache Manager (`SapienDataset.__init__`, use_cache branch) ===================== -/

/-- What sits on disk at the `cache.zarr.zip` path. A `zarr.ZipStore` is a
single regular file; the commented-out `zarr.DirectoryStore` variant would
be a directory. -/
inductive CacheEntry : Type
  | absent
  | halfWrittenFile
  | fullFile
  | directory
  deriving DecidableEq, Repr

/-- The Python exception surfaced by the cache branch. `buildErr` / `saveErr`
stand for the original exception raised inside the `try:` block during
`_convert_sapein_to_dp_replay` resp. `replay_buffer.save_to_store`. -/
inductive CacheErr : Type
  | buildErr
  | saveErr
  | notADirectory
  | fileNotFound
  deriving DecidableEq, Repr

/-- `shutil.rmtree` on the cache path: removes a directory; raises
`NotADirectoryError` on a regular file and `FileNotFoundError` on a missing
path. -/
def rmtree (e : CacheEntry) : Except CacheErr CacheEntry :=
  match e with
  | .absent => .error .fileNotFound
  | .halfWrittenFile => .error .notADirectory
  | .fullFile => .error .notADirectory
  | .directory => .ok .absent

/-- The `use_cache` branch of `SapienDataset.__init__` (lines 219-243):
under the file lock, if the archive is absent, `try:` build the replay buffer
in memory (`buildOk = false` models an exception there, before any archive
byte is written), then serialize it into a `zarr.ZipStore` at the cache path
(`saveOk = false` models an exception after the zip file has been partially
written); `except Exception as e: shutil.rmtree(cache_zarr_path); raise e`.
If `rmtree` itself raises, that exception propagates and `raise e` is never
reached (Python handler semantics).  Returns the final on-disk entry at the
cache path and the outcome visible to the caller. -/
def cacheInit (e0 : CacheEntry) (buildOk saveOk : Bool) :
    CacheEntry × Except CacheErr Unit :=
  if e0 = .absent then
    if buildOk = false then
      -- exception during the in-memory build: nothing written yet
      match rmtree .absent with
      | .ok e' => (e', .error .buildErr)
      | .error r => (.absent, .error r)
    else if saveOk = false then
      -- exception during serialization: the zip file exists, half written
      match rmtree .halfWrittenFile with
      | .ok e' => (e', .error .saveErr)
      | .error r => (.halfWrittenFile, .error r)
    else
      (.fullFile, .ok ())
  else
    -- cache hit: load the archive, lock released, nothing deleted
    (e0, .ok ())

/- ===================== episode_ends (`_convert_sapein_to_dp_replay`, lines 92-103, 144-147) ===================== -/

/-- The running-offset loop: `episode_end = prev_end + episode_length;
prev_end = episode_end; episode_ends.append(episode_end)`. -/
def episodeEndsFrom (prev : Nat) : List Nat → List Nat
  | [] => []
  | l :: ls => (prev + l) :: episodeEndsFrom (prev + l) ls

/-- `episode_ends` as accumulated by the conversion loop, starting from
`prev_end = 0`, given the per-episode step counts in episode order. -/
def computeEpisodeEnds (lengths : List Nat) : List Nat :=
  episodeEndsFrom 0 lengths

/- ===================== Action Canonicalizer (`_convert_actions`, lines 46-64) ===================== -/

/-- One 7-vector arm row through `_convert_actions`' core:
`pos = row[:3]`, `rot = row[3:6]`, `gripper = row[6:]`,
`rot = rotation_transformer.forward(rot)`,
`np.concatenate([pos, rot, gripper]).astype(np.float32)` — the float32 cast
is the pointwise `castF`. -/
def convertRow {α : Type} (castF : α → α) (rtF : List α → List α)
    (row : List α) : List α :=
  ((row.take 3) ++ rtF ((row.drop 3).take 3) ++ (row.drop 6)).map castF

/-- `_convert_actions`: if the last dimension is 14, `reshape(-1,2,7)`
(requires the total size to be a multiple of 14; row-major view as rows of 7),
convert every arm row, then `reshape(-1,20)` (requires the flattened converted
size to be a multiple of 20 — numpy raises otherwise, modelled as `none`).
Any other last dimension skips both reshapes. -/
def convert_actions {α : Type} (castF : α → α) (rtF : List α → List α)
    (raw : List (List α)) (lastDim : Nat) : Option (List (List α)) :=
  if lastDim = 14 then
    if 14 ∣ raw.flatten.length then
      let arms := chunkList 7 raw.flatten
      let conv := (arms.map (convertRow castF rtF)).flatten
      if 20 ∣ conv.length then some (chunkList 20 conv) else none
    else none
  else
    some (raw.map (convertRow castF rtF))

/-- Spec-side description of one canonicalized arm: position (first 3) and
gripper (7th component onwards) unchanged apart from the float cast, the 3
orientation angles replaced by the configured rotation-representation
conversion. -/
def specArmRow {α : Type} (castF : α → α) (rtF : List α → List α)
    (row : List α) : List α :=
  (row.take 3).map castF ++ (rtF ((row.drop 3).take 3)).map castF
    ++ (row.drop 6).map castF

/-- Spec-side single-arm conversion: every row canonicalized in place. -/
def specConvertSingle {α : Type} (castF : α → α) (rtF : List α → List α)
    (raw : List (List α)) : List (List α) :=
  raw.map (specArmRow castF rtF)

/-- Spec-side dual-arm conversion: each 14-row is split into two 7-vector
arms, each canonicalized, and the two arms flattened back into one row. -/
def specConvertDual {α : Type} (castF : α → α) (rtF : List α → List α)
    (raw : List (List α)) : List (List α) :=
  raw.map (fun row =>
    specArmRow castF rtF (row.take 7) ++ specArmRow castF rtF (row.drop 7))

/-- Concrete float-cast stand-in for witness evaluations. -/
def sampleCast (x : Nat) : Nat := x + 1

/-- Concrete width-6 rotation conversion (the `rotation_6d` output width)
for witness evaluations. -/
def sampleRot6 (_v : List Nat) : List Nat := [9, 9, 9, 9, 9, 9]

/-- Concrete single-arm raw action batch (one step, 7 components). -/
def sampleRaw7 : List (List Nat) := [[0, 1, 2, 3, 4, 5, 6]]

/-- Concrete dual-arm raw action batch (one step, 14 components). -/
def sampleRaw14 : List (List Nat) :=
  [[0, 1, 2, 3, 4, 5, 6, 7, 8, 9, 10, 11, 12, 13]]

/-- The canonicalized dual-arm batch produced from `sampleRaw14`. -/
def sampleDualOut : List (List Nat) :=
  [[1, 2, 3, 10, 10, 10, 10, 10, 10, 7,
    8, 9, 10, 10, 10, 10, 10, 10, 10, 14]]

/- ===================== per-episode shape checks (lines 106-121) ===================== -/

/-- Shape of the data stored for `key` in the episode loop: the action slot
holds the canonicalized action, every other key holds the raw field read from
`observations/<key>`. -/
def fieldActual (fieldShape : String → List Nat) (convActionShape : List Nat)
    (key : String) : List Nat :=
  if key = "action" then convActionShape else fieldShape key

/-- Shape the `assert` demands for `key`:
`(episode_length,) + tuple(shape_meta[...]['shape'])`. -/
def fieldExpected (episodeLength : Nat) (declaredObs : String → List Nat)
    (declaredAction : List Nat) (key : String) : List Nat :=
  if key = "action" then episodeLength :: declaredAction
  else episodeLength :: declaredObs key

/-- The assertion loop over keys: stops with `AssertionError` (carrying the
offending key) at the first shape mismatch, otherwise processes every key. -/
def checkFields (actual expected : String → List Nat) :
    List String → Except String Unit
  | [] => .ok ()
  | k :: ks =>
    if actual k = expected k then checkFields actual expected ks
    else .error k

/-- The per-episode low-dim loop of `_convert_sapein_to_dp_replay`
(lines 106-121): iterate `lowdim_keys + ['action']`, asserting each stored
array's shape against the declared shape. -/
def processEpisodeFields (episodeLength : Nat) (lowdimKeys : List String)
    (fieldShape declaredObs : String → List Nat)
    (convActionShape declaredAction : List Nat) : Except String Unit :=
  checkFields (fieldActual fieldShape convActionShape)
    (fieldExpected episodeLength declaredObs declaredAction)
    (lowdimKeys ++ ["action"])

/-- Concrete low-dim key list for witness evaluations. -/
def sampleLowdimKeys : List String := ["agent_pos"]

/-- Concrete raw field shapes: `agent_pos` comes back as `(5, 2)`. -/
def sampleFieldShape (k : String) : List Nat :=
  if k = "agent_pos" then [5, 2] else []

/-- Concrete declared per-key observation shape: `(3,)` for every key. -/
def sampleDeclaredObs (_k : String) : List Nat := [3]

/-- Concrete canonicalized-action shape `(5, 10)`. -/
def sampleConvActionShape : List Nat := [5, 10]

/-- Concrete declared action shape `(10,)`. -/
def sampleDeclaredAction : List Nat := [10]

/- ===================== episode enumeration (lines 91-98) ===================== -/

/-- Open `episode_{i}.hdf5`: succeeds iff the index is among the files present
in the dataset directory; `h5py.File` raises `OSError` (modelled as
`.error i`) on a missing file. -/
def readEpisodesLoop (present : List Nat) : List Nat → Except Nat (List Nat)
  | [] => .ok []
  | i :: is =>
    if i ∈ present then
      match readEpisodesLoop present is with
      | .ok rest => .ok (i :: rest)
      | .error e => .error e
    else .error i

/-- The episode enumeration of `_convert_sapein_to_dp_replay`:
`num_episodes = glob.glob(os.path.join(dataset_dir, 'episode_*.hdf5'))` is
the *list of matching files* (here: their indices, pairwise distinct), and the
loop opens `episode_{epi_idx}.hdf5` for `epi_idx in range(len(num_episodes))`
in ascending order.  Returns the indices successfully read, in order. -/
def convertEpisodeReads (present : List Nat) : Except Nat (List Nat) :=
  readEpisodesLoop present (List.range present.length)

/- ===================== image dump (img_copy, lines 134-141 and 162-191) ===================== -/

/-- Result returned by one `img_copy` task for frame `i`:
`zarr_arr[zarr_idx] = hdf5_arr[hdf5_idx]` compresses the frame on write
(`encodeRes i = none` models an exception there), then `_ = zarr_arr[zarr_idx]`
re-decodes the just-written chunk (`decodeOk` models that check); `True` iff
both succeed, `False` on any exception. -/
def imgCopyOk {β : Type} (encodeRes : Nat → Option β) (decodeOk : β → Bool)
    (i : Nat) : Bool :=
  match encodeRes i with
  | none => false
  | some v => decodeOk v

/-- The store effect of the successful `img_copy` tasks executed in the given
completion order: task `i` writes the compressed frame `encode (frame i)` at
its own index `zarr_idx = hdf5_idx = i` of the destination array. -/
def applyTaskWrites {α β : Type} (encode : α → β) (frame : Nat → α)
    (order : List Nat) (st : Nat → Option β) : Nat → Option β :=
  order.foldl (fun s i => fun j => if j = i then some (encode (frame i)) else s j) st

/-- The destination compressed-image array after the dump loop, given the
order in which the worker pool happened to complete the tasks (any
interleaving allowed by the executor / `max_inflight_tasks` cap is some
permutation of the submitted indices `0, …, n-1`). -/
def dumpImages {α β : Type} (encode : α → β) (frame : Nat → α)
    (order : List Nat) : Nat → Option β :=
  applyTaskWrites encode frame order (fun _ => none)

/-- The store the dump is meant to produce: frame `j`'s encoding at index
`j` for every `j < n`. -/
def canonicalImageStore {α β : Type} (encode : α → β) (frame : Nat → α)
    (n : Nat) : Nat → Option β :=
  fun j => if j < n then some (encode (frame j)) else none

/-- The failure-checking done by the dump loop: each `concurrent.futures.wait`
returns a batch of completed futures, and every completed future's result is
inspected — `if not f.result(): raise RuntimeError('Failed to encode image!')`.
The final `wait` retires every remaining future, so the batches partition all
submitted tasks. -/
def checkBatches (result : Nat → Bool) : List (List Nat) → Except String Unit
  | [] => .ok ()
  | b :: bs =>
    if b.all result then checkBatches result bs
    else .error "Failed to encode image!"

/-- Concrete raw-frame array for witness evaluations. -/
def sampleFrame (i : Nat) : Nat := 10 * i

/-- Concrete per-frame encode outcome: frame 1's write raises. -/
def sampleEncodeRes (i : Nat) : Option Nat :=
  if i = 1 then none else some (10 * i)

/-- Concrete re-decode check that always succeeds. -/
def sampleDecodeOk (_v : Nat) : Bool := true

/-- Concrete completion batches for three frames: the mid-loop wait retires
frame 0, the final wait retires frames 1 and 2. -/
def sampleBatches : List (List Nat) := [[0], [1, 2]]

/- ===================== Normalization Provider (lines 36-44 and 301-325) ===================== -/

/-- `array_to_stats` output restricted to what `normalizer_from_stat` reads:
the per-dimension `min` and `max` arrays of the action data. -/
structure ActionStat : Type where
  statMin : List ℚ
  statMax : List ℚ
  deriving DecidableEq, Repr

/-- `normalizer_from_stat`:
`max_abs = np.maximum(stat['max'].max(), np.abs(stat['min']).max())`,
`scale = np.full_like(stat['max'], fill_value=1/max_abs)`,
`offset = np.zeros_like(stat['max'])`.  `none` when a stat array is empty
(numpy's `.max()` raises there). -/
def normalizer_from_stat (s : ActionStat) : Option (List ℚ × List ℚ) :=
  match npAmax s.statMax, npAmax (s.statMin.map (fun q => |q|)) with
  | some mx, some mnAbs =>
    let maxAbs := max mx mnAbs
    some (s.statMax.map (fun _ => 1 / maxAbs), s.statMax.map (fun _ => 0))
  | _, _ => none

/-- The action branch of `SapienDataset.get_normalizer` (lines 304-310):
the legacy (manual) scheme goes through `normalizer_from_stat`, anything else
is `raise RuntimeError('unsupported')`. -/
def getNormalizerAction (useLegacy : Bool) (s : ActionStat) :
    Except String (List ℚ × List ℚ) :=
  if useLegacy then
    match normalizer_from_stat s with
    | some p => .ok p
    | none => .error "empty stat"
  else .error "unsupported"

/-- Spec-side symmetric bound: the largest of `max(|min_i|, |max_i|)` over
every dimension `i` of the statistics (0 is a neutral seed: every `|q|` is
nonnegative). -/
def specSymmetricMaxAbs (s : ActionStat) : ℚ :=
  ((s.statMin ++ s.statMax).map (fun q => |q|)).foldl max 0

/-- Python `str.endswith`, on keys modelled as character lists: the last
`s.length` characters equal `s`. -/
def endsWithL (s key : List Char) : Bool :=
  decide (key.drop (key.length - s.length) = s)

def posChars : List Char := ['p', 'o', 's']

def quatChars : List Char := ['q', 'u', 'a', 't']

def qposChars : List Char := ['q', 'p', 'o', 's']

/-- The normalizer assigned to a low-dim observation field. -/
inductive LowdimNormalizer : Type
  | rangeNormalizer
  | identityNormalizer
  deriving DecidableEq, Repr

/-- The low-dim dispatch of `SapienDataset.get_normalizer` (lines 313-325):
`key.endswith('pos')` → range normalizer, `key.endswith('quat')` → identity
normalizer, `key.endswith('qpos')` → range normalizer, otherwise
`raise RuntimeError('unsupported')`. -/
def lowdimNormalizerFor (key : List Char) : Except String LowdimNormalizer :=
  if endsWithL posChars key then .ok .rangeNormalizer
  else if endsWithL quatChars key then .ok .identityNormalizer
  else if endsWithL qposChars key then .ok .rangeNormalizer
  else .error "unsupported"

/-- Concrete two-dimensional action statistics for witness evaluations:
per-dimension minima `[-2, 0]` and maxima `[1, 3]`. -/
def sampleStat : ActionStat := ⟨[-2, 0], [1, 3]⟩

/- ===================== lemmas: episode ends ===================== -/

theorem episodeEndsFrom_length (prev : Nat) (ls : List Nat) :
    (episodeEndsFrom prev ls).length = ls.length := by
  induction ls generalizing prev with
  | nil => rfl
  | cons l ls ih => simp [episodeEndsFrom, ih]

theorem episodeEndsFrom_getD (ls : List Nat) :
    ∀ (prev k : Nat), k < ls.length →
      (episodeEndsFrom prev ls).getD k 0 = prev + (ls.take (k + 1)).sum := by
  induction ls with
  | nil => intro prev k h; simp at h
  | cons l ls ih =>
    intro prev k h
    cases k with
    | zero => simp [episodeEndsFrom]
    | succ k =>
      simp only [episodeEndsFrom, List.getD_cons_succ, List.take_succ_cons,
        List.sum_cons]
      rw [ih (prev + l) k (by simpa using Nat.lt_of_succ_lt_succ h)]
      ring

theorem computeEpisodeEnds_getD (lengths : List Nat) (k : Nat)
    (h : k < lengths.length) :
    (computeEpisodeEnds lengths).getD k 0 = (lengths.take (k + 1)).sum := by
  simpa using episodeEndsFrom_getD lengths 0 k h

/- ===================== lemmas: chunking / reshape ===================== -/

theorem chunkList_flatten {α : Type} (k : Nat) (hk : 0 < k) :
    ∀ rows : List (List α), (∀ r ∈ rows, r.length = k) →
      chunkList k rows.flatten = rows := by
  intro rows
  induction rows with
  | nil => intro _; simp [chunkList]
  | cons r rest ih =>
    intro hlen
    have hr : r.length = k := hlen r (by simp)
    have hrne : r ≠ [] := by
      intro h
      subst h
      simp at hr
      omega
    obtain ⟨a, as, rfl⟩ := List.exists_cons_of_ne_nil hrne
    show chunkList k ((a :: as) ++ rest.flatten) = _
    rw [List.cons_append, chunkList, dif_neg (Nat.pos_iff_ne_zero.mp hk),
      ← List.cons_append, List.take_left' hr, List.drop_left' hr]
    rw [ih (fun r' hr' => hlen r' (by simp [hr']))]

theorem chunkList_mem_length_aux {α : Type} (k : Nat) (hk : 0 < k) :
    ∀ (n : Nat) (l : List α), l.length ≤ n → k ∣ l.length →
      ∀ r ∈ chunkList k l, r.length = k := by
  intro n
  induction n with
  | zero =>
    intro l hl _ r hr
    have : l = [] := List.length_eq_zero.mp (Nat.le_zero.mp hl)
    subst this
    simp [chunkList] at hr
  | succ n ih =>
    intro l hl hdvd r hr
    cases l with
    | nil => simp [chunkList] at hr
    | cons x xs =>
      rw [chunkList, dif_neg (Nat.pos_iff_ne_zero.mp hk)] at hr
      rcases List.mem_cons.mp hr with h | h
      · subst h
        have hkle : k ≤ (x :: xs).length := Nat.le_of_dvd (by simp) hdvd
        have hkle' : k ≤ xs.length + 1 := by simpa using hkle
        simp [List.length_take, Nat.min_eq_left hkle']
      · have hdvd' : k ∣ ((x :: xs).drop k).length := by
          rw [List.length_drop]
          exact Nat.dvd_sub' hdvd dvd_rfl
        refine ih ((x :: xs).drop k) ?_ hdvd' r h
        simp only [List.length_drop, List.length_cons] at *
        omega

theorem chunkList_mem_length {α : Type} (k : Nat) (hk : 0 < k) (l : List α)
    (hdvd : k ∣ l.length) : ∀ r ∈ chunkList k l, r.length = k :=
  chunkList_mem_length_aux k hk l.length l le_rfl hdvd

theorem flatten_length_const {α : Type} (k : Nat) :
    ∀ L : List (List α), (∀ r ∈ L, r.length = k) →
      L.flatten.length = k * L.length := by
  intro L
  induction L with
  | nil => intro _; simp
  | cons r rest ih =>
    intro h
    have hr : r.length = k := h r (by simp)
    simp only [List.flatten_cons, List.length_append, List.length_cons, hr,
      ih (fun r' hr' => h r' (by simp [hr']))]
    ring

theorem pair_split_flatten {α : Type} (rows : List (List α)) :
    ((rows.map (fun r => [r.take 7, r.drop 7])).flatten).flatten
      = rows.flatten := by
  induction rows with
  | nil => rfl
  | cons r rest ih =>
    simp only [List.map_cons, List.flatten_cons, List.cons_append,
      List.nil_append, List.append_assoc, ih]
    rw [← List.append_assoc, List.take_append_drop]

theorem dual_conv_flatten {α β : Type} (cR : List α → List β)
    (rows : List (List α)) :
    (((rows.map (fun r => [r.take 7, r.drop 7])).flatten).map cR).flatten
      = (rows.map (fun r => cR (r.take 7) ++ cR (r.drop 7))).flatten := by
  induction rows with
  | nil => rfl
  | cons r rest ih =>
    simp only [List.map_cons, List.flatten_cons, List.map_append,
      List.flatten_append, List.map_nil, List.flatten_nil, List.append_nil,
      List.append_assoc]
    rw [ih]

theorem convertRow_eq_specArmRow {α : Type} (castF : α → α)
    (rtF : List α → List α) (row : List α) :
    convertRow castF rtF row = specArmRow castF rtF row := by
  simp [convertRow, specArmRow, List.map_append]

theorem convertRow_length {α : Type} (castF : α → α) (rtF : List α → List α)
    (hw : ∀ v : List α, v.length = 3 → (rtF v).length = 6)
    (row : List α) (hrow : row.length = 7) :
    (convertRow castF rtF row).length = 10 := by
  have h3 : ((row.drop 3).take 3).length = 3 := by
    simp [List.length_take, List.length_drop, hrow]
  simp [convertRow, List.length_append, List.length_take, List.length_drop,
    hrow, hw _ h3]

/- ===================== lemmas: shape checks and episode reads ===================== -/

theorem checkFields_ok_iff (actual expected : String → List Nat) :
    ∀ ks : List String,
      checkFields actual expected ks = .ok () ↔ ∀ k ∈ ks, actual k = expected k := by
  intro ks
  induction ks with
  | nil => simp [checkFields]
  | cons k ks ih =>
    by_cases h : actual k = expected k
    · simp [checkFields, h, ih]
    · simp [checkFields, h]

theorem checkFields_first_error (actual expected : String → List Nat) :
    ∀ ks : List String, (∃ k ∈ ks, actual k ≠ expected k) →
      ∃ pre kbad post, ks = pre ++ kbad :: post ∧
        (∀ k ∈ pre, actual k = expected k) ∧
        actual kbad ≠ expected kbad ∧
        checkFields actual expected ks = .error kbad := by
  intro ks
  induction ks with
  | nil => intro h; simp at h
  | cons k ks ih =>
    intro h
    by_cases hk : actual k = expected k
    · have hrest : ∃ k' ∈ ks, actual k' ≠ expected k' := by
        obtain ⟨k', hk', hne⟩ := h
        rcases List.mem_cons.mp hk' with rfl | hmem
        · exact absurd hk hne
        · exact ⟨k', hmem, hne⟩
      obtain ⟨pre, kbad, post, hsplit, hpre, hbad, hres⟩ := ih hrest
      refine ⟨k :: pre, kbad, post, by simp [hsplit], ?_, hbad, ?_⟩
      · intro k' hk'
        rcases List.mem_cons.mp hk' with rfl | hmem
        · exact hk
        · exact hpre k' hmem
      · simpa [checkFields, hk] using hres
    · exact ⟨[], k, ks, rfl, by simp, hk, by simp [checkFields, hk]⟩

theorem readEpisodesLoop_ok (present : List Nat) :
    ∀ is : List Nat, (∀ i ∈ is, i ∈ present) →
      readEpisodesLoop present is = .ok is := by
  intro is
  induction is with
  | nil => intro _; rfl
  | cons i is ih =>
    intro h
    have hi : i ∈ present := h i (by simp)
    simp [readEpisodesLoop, hi, ih (fun j hj => h j (by simp [hj]))]

theorem readEpisodesLoop_error (present : List Nat) :
    ∀ is : List Nat, (∃ i ∈ is, i ∉ present) →
      ∃ i ∈ is, i ∉ present ∧ readEpisodesLoop present is = .error i := by
  intro is
  induction is with
  | nil => intro h; simp at h
  | cons i is ih =>
    intro h
    by_cases hi : i ∈ present
    · have hrest : ∃ j ∈ is, j ∉ present := by
        obtain ⟨j, hj, hnp⟩ := h
        rcases List.mem_cons.mp hj with rfl | hmem
        · exact absurd hi hnp
        · exact ⟨j, hmem, hnp⟩
      obtain ⟨j, hj, hnp, hres⟩ := ih hrest
      refine ⟨j, by simp [hj], hnp, ?_⟩
      simp only [readEpisodesLoop, if_pos hi, hres]
    · exact ⟨i, by simp, hi, by simp [readEpisodesLoop, hi]⟩

/- ===================== lemmas: image dump ===================== -/

theorem applyTaskWrites_eval {α β : Type} (encode : α → β) (frame : Nat → α) :
    ∀ (order : List Nat) (st : Nat → Option β) (j : Nat),
      applyTaskWrites encode frame order st j
        = if j ∈ order then some (encode (frame j)) else st j := by
  intro order
  induction order with
  | nil => intro st j; simp [applyTaskWrites]
  | cons i rest ih =>
    intro st j
    have hstep : applyTaskWrites encode frame (i :: rest) st
        = applyTaskWrites encode frame rest
            (fun j' => if j' = i then some (encode (frame i)) else st j') := rfl
    rw [hstep, ih]
    by_cases hjr : j ∈ rest
    · simp [hjr]
    · by_cases hji : j = i
      · subst hji
        simp [hjr]
      · simp [hjr, hji]

theorem dumpImages_perm {α β : Type} (encode : α → β) (frame : Nat → α)
    (n : Nat) (order : List Nat) (hperm : order.Perm (List.range n)) :
    dumpImages encode frame order = canonicalImageStore encode frame n := by
  funext j
  rw [dumpImages, applyTaskWrites_eval]
  by_cases hj : j < n
  · rw [if_pos (hperm.mem_iff.mpr (List.mem_range.mpr hj))]
    simp [canonicalImageStore, hj]
  · rw [if_neg (fun hmem => hj (List.mem_range.mp (hperm.mem_iff.mp hmem)))]
    simp [canonicalImageStore, hj]

theorem checkBatches_ok_iff (result : Nat → Bool) :
    ∀ bs : List (List Nat),
      checkBatches result bs = .ok () ↔ ∀ b ∈ bs, ∀ i ∈ b, result i = true := by
  intro bs
  induction bs with
  | nil => simp [checkBatches]
  | cons b bs ih =>
    by_cases hb : b.all result
    · rw [List.all_eq_true] at hb
      have heq : checkBatches result (b :: bs) = checkBatches result bs := by
        simp [checkBatches, List.all_eq_true.mpr hb]
      rw [heq, ih, List.forall_mem_cons]
      exact ⟨fun h => ⟨hb, h⟩, fun h => h.2⟩
    · have : ¬ ∀ i ∈ b, result i = true := fun h => hb (List.all_eq_true.mpr h)
      simp [checkBatches, hb, this]

theorem checkBatches_error (result : Nat → Bool) :
    ∀ bs : List (List Nat), (∃ b ∈ bs, ∃ i ∈ b, result i = false) →
      checkBatches result bs = .error "Failed to encode image!" := by
  intro bs
  induction bs with
  | nil => intro h; simp at h
  | cons b bs ih =>
    intro h
    by_cases hb : b.all result
    · have hrest : ∃ b' ∈ bs, ∃ i ∈ b', result i = false := by
        obtain ⟨b', hb', i, hi, hfalse⟩ := h
        rcases List.mem_cons.mp hb' with rfl | hmem
        · exact absurd (List.all_eq_true.mp hb i hi) (by simp [hfalse])
        · exact ⟨b', hmem, i, hi, hfalse⟩
      simpa [checkBatches, hb] using ih hrest
    · simp [checkBatches, hb]

/- ===================== lemmas: statistics maxima ===================== -/

theorem le_foldlMax_seed : ∀ (l : List ℚ) (x : ℚ), x ≤ l.foldl max x := by
  intro l
  induction l with
  | nil => intro x; exact le_rfl
  | cons y ys ih =>
    intro x
    exact le_trans (le_max_left x y) (ih (max x y))

theorem le_foldlMax_mem (a : ℚ) :
    ∀ (l : List ℚ) (x : ℚ), a ∈ l → a ≤ l.foldl max x := by
  intro l
  induction l with
  | nil => intro x h; simp at h
  | cons y ys ih =>
    intro x h
    rcases List.mem_cons.mp h with rfl | hmem
    · exact le_trans (le_max_right x a) (le_foldlMax_seed ys (max x a))
    · exact ih (max x y) hmem

theorem foldlMax_le (b : ℚ) :
    ∀ (l : List ℚ) (x : ℚ), x ≤ b → (∀ a ∈ l, a ≤ b) → l.foldl max x ≤ b := by
  intro l
  induction l with
  | nil => intro x hx _; exact hx
  | cons y ys ih =>
    intro x hx h
    exact ih (max x y) (max_le hx (h y (by simp)))
      (fun a ha => h a (by simp [ha]))

theorem npAmax_isUB {l : List ℚ} {m : ℚ} (h : npAmax l = some m) :
    ∀ a ∈ l, a ≤ m := by
  cases l with
  | nil => simp [npAmax] at h
  | cons x xs =>
    simp only [npAmax, Option.some.injEq] at h
    subst h
    intro a ha
    rcases List.mem_cons.mp ha with rfl | hmem
    · exact le_foldlMax_seed xs a
    · exact le_foldlMax_mem a xs x hmem

theorem npAmax_le {l : List ℚ} {m b : ℚ} (h : npAmax l = some m)
    (hub : ∀ a ∈ l, a ≤ b) : m ≤ b := by
  cases l with
  | nil => simp [npAmax] at h
  | cons x xs =>
    simp only [npAmax, Option.some.injEq] at h
    subst h
    exact foldlMax_le b xs x (hub x (by simp)) (fun a ha => hub a (by simp [ha]))

theorem forall2_mem_right {R : ℚ → ℚ → Prop} :
    ∀ {l₁ l₂ : List ℚ}, List.Forall₂ R l₁ l₂ → ∀ b ∈ l₂, ∃ a ∈ l₁, R a b := by
  intro l₁ l₂ h
  induction h with
  | nil => intro b hb; simp at hb
  | @cons a b l₁' l₂' hR _hF ih =>
    intro b' hb'
    rcases List.mem_cons.mp hb' with rfl | hmem
    · exact ⟨a, by simp, hR⟩
    · obtain ⟨a', ha', hr⟩ := ih b' hmem
      exact ⟨a', by simp [ha'], hr⟩

theorem map_const_eq_replicate {α β : Type} (c : β) :
    ∀ l : List α, l.map (fun _ => c) = List.replicate l.length c := by
  intro l
  induction l with
  | nil => rfl
  | cons x xs ih => simp [ih, List.replicate_succ]

theorem spec_isUB (s : ActionStat) :
    ∀ a ∈ s.statMin ++ s.statMax, |a| ≤ specSymmetricMaxAbs s := by
  intro a ha
  exact le_foldlMax_mem _ _ 0 (List.mem_map.mpr ⟨a, ha, rfl⟩)

/-- The scalar `np.maximum(stat['max'].max(), np.abs(stat['min']).max())`
computed by `normalizer_from_stat` equals the symmetric bound
`max over every dimension of max(|min_i|, |max_i|)`, whenever the statistics
are consistent (`min_i ≤ max_i` dimension-wise). -/
theorem normalizer_from_stat_eq (s : ActionStat) (hne : s.statMax ≠ [])
    (hF : List.Forall₂ (· ≤ ·) s.statMin s.statMax) :
    normalizer_from_stat s
      = some (List.replicate s.statMax.length (1 / specSymmetricMaxAbs s),
              List.replicate s.statMax.length (0 : ℚ)) := by
  have hlen : s.statMin.length = s.statMax.length := hF.length_eq
  have hmne : s.statMin ≠ [] := by
    intro h
    rw [h] at hlen
    exact hne (List.length_eq_zero.mp hlen.symm)
  obtain ⟨y, ys, hy⟩ := List.exists_cons_of_ne_nil hne
  obtain ⟨z, zs, hz⟩ := List.exists_cons_of_ne_nil hmne
  have hmx : npAmax s.statMax = some (ys.foldl max y) := by rw [hy]; rfl
  have hmn : npAmax (s.statMin.map (fun q => |q|))
      = some ((zs.map (fun q => |q|)).foldl max |z|) := by rw [hz]; rfl
  set mx := ys.foldl max y with hmxdef
  set mnAbs := (zs.map (fun q => |q|)).foldl max |z| with hmndef
  have hmxUB := npAmax_isUB hmx
  have hmnUB := npAmax_isUB hmn
  have heq : max mx mnAbs = specSymmetricMaxAbs s := by
    apply le_antisymm
    · apply max_le
      · apply npAmax_le hmx
        intro a ha
        exact le_trans (le_abs_self a)
          (spec_isUB s a (List.mem_append.mpr (Or.inr ha)))
      · apply npAmax_le hmn
        intro v hv
        obtain ⟨a, ha, rfl⟩ := List.mem_map.mp hv
        exact spec_isUB s a (List.mem_append.mpr (Or.inl ha))
    · have h0 : (0 : ℚ) ≤ max mx mnAbs := by
        have hzmem : |z| ∈ s.statMin.map (fun q => |q|) := by simp [hz]
        exact le_trans (abs_nonneg z)
          (le_trans (hmnUB _ hzmem) (le_max_right mx mnAbs))
      apply foldlMax_le _ _ _ h0
      intro v hv
      obtain ⟨a, ha, rfl⟩ := List.mem_map.mp hv
      rcases List.mem_append.mp ha with hamin | hamax
      · exact le_trans (hmnUB _ (List.mem_map.mpr ⟨a, hamin, rfl⟩))
          (le_max_right mx mnAbs)
      · rcases le_or_lt 0 a with hpos | hneg
        · rw [abs_of_nonneg hpos]
          exact le_trans (hmxUB a hamax) (le_max_left mx mnAbs)
        · obtain ⟨c, hc, hca⟩ := forall2_mem_right hF a hamax
          rw [abs_of_neg hneg]
          have h1 : -a ≤ -c := by linarith
          have h2 : -c ≤ |c| := neg_le_abs c
          exact le_trans h1 (le_trans h2
            (le_trans (hmnUB _ (List.mem_map.mpr ⟨c, hc, rfl⟩))
              (le_max_right mx mnAbs)))
  rw [normalizer_from_stat, hmx, hmn]
  simp only [map_const_eq_replicate, heq]

/- ===================== lemmas: suffix dispatch ===================== -/

theorem endsWithL_iff (s key : List Char) :
    endsWithL s key = true ↔ key.drop (key.length - s.length) = s := by
  simp [endsWithL]

theorem endsWithL_length_le {s key : List Char} (h : endsWithL s key = true) :
    s.length ≤ key.length := by
  rw [endsWithL_iff] at h
  have hlen := congrArg List.length h
  simp only [List.length_drop] at hlen
  omega

theorem drop_shift_one {key : List Char} {m : Nat} (h4 : m + 1 ≤ key.length) :
    key.drop (key.length - m) = (key.drop (key.length - (m + 1))).drop 1 := by
  rw [List.drop_drop]
  congr 1
  omega

theorem qpos_ends_pos {key : List Char} (h : endsWithL qposChars key = true) :
    endsWithL posChars key = true := by
  have hlen : qposChars.length ≤ key.length := endsWithL_length_le h
  simp only [qposChars, List.length_cons, List.length_nil] at hlen
  rw [endsWithL_iff] at h ⊢
  show key.drop (key.length - 3) = posChars
  rw [drop_shift_one (by omega : 3 + 1 ≤ key.length)]
  show (key.drop (key.length - qposChars.length)).drop 1 = posChars
  rw [h]
  rfl

theorem quat_not_pos {key : List Char} (h : endsWithL quatChars key = true) :
    endsWithL posChars key = false := by
  have hlen : quatChars.length ≤ key.length := endsWithL_length_le h
  simp only [quatChars, List.length_cons, List.length_nil] at hlen
  rw [endsWithL_iff] at h
  rw [Bool.eq_false_iff]
  intro hpos
  rw [endsWithL_iff] at hpos
  have hshift : key.drop (key.length - 3)
      = (key.drop (key.length - 4)).drop 1 :=
    drop_shift_one (by omega : 3 + 1 ≤ key.length)
  have h' : key.drop (key.length - 4) = quatChars := h
  rw [show (key.length - posChars.length) = key.length - 3 from rfl,
    hshift, h'] at hpos
  exact absurd hpos (by decide)

/- ===================== claim theorems ===================== -/

/-- **C1.** The spec demands: on any exception during the cache build or its
serialization, delete the partially-written archive entirely and re-raise the
original exception.  The code instead calls `shutil.rmtree` on the
`cache.zarr.zip` path, which is a regular zip *file* (or absent): when
serialization fails after the zip was partially written, `rmtree` raises
`NotADirectoryError`, the half-written archive stays on disk and the original
exception is masked; when the build itself fails, `rmtree` raises
`FileNotFoundError`, again masking the original exception. -/
theorem claim_C1_cache_cleanup_bug :
    cacheInit .absent true false
      = (.halfWrittenFile, .error .notADirectory) ∧
    cacheInit .absent false true
      = (.absent, .error .fileNotFound) := by
  constructor <;> rfl

/-- **C2.** `episode_ends` is exactly the running cumulative sum of the
per-episode step counts: its length is the episode count, successive
differences recover each episode's step count, it is monotonically
non-decreasing, and its last entry is the total step count. -/
theorem claim_C2_episode_ends (lengths : List Nat) :
    (computeEpisodeEnds lengths).length = lengths.length ∧
    (∀ k, k < lengths.length →
      (computeEpisodeEnds lengths).getD k 0 -
        (if k = 0 then 0 else (computeEpisodeEnds lengths).getD (k - 1) 0)
        = lengths.getD k 0) ∧
    (∀ k, k + 1 < lengths.length →
      (computeEpisodeEnds lengths).getD k 0
        ≤ (computeEpisodeEnds lengths).getD (k + 1) 0) ∧
    (lengths ≠ [] →
      (computeEpisodeEnds lengths).getD (lengths.length - 1) 0
        = lengths.sum) := by
  refine ⟨by simpa [computeEpisodeEnds] using episodeEndsFrom_length 0 lengths,
    ?_, ?_, ?_⟩
  · intro k hk
    cases k with
    | zero =>
      rw [computeEpisodeEnds_getD lengths 0 hk]
      cases lengths with
      | nil => simp at hk
      | cons l ls => simp
    | succ k =>
      have hk' : k < lengths.length := Nat.lt_of_succ_lt hk
      rw [computeEpisodeEnds_getD lengths (k + 1) hk,
        if_neg (Nat.succ_ne_zero k)]
      simp only [Nat.add_sub_cancel]
      rw [computeEpisodeEnds_getD lengths k hk']
      rw [List.take_succ]
      have hget : lengths[k + 1]? = some (lengths.getD (k + 1) 0) := by
        rw [List.getElem?_eq_getElem hk, List.getD_eq_getElem lengths 0 hk]
      rw [hget]
      simp [Nat.add_sub_cancel_left]
  · intro k hk
    have hk1 : k < lengths.length := by omega
    rw [computeEpisodeEnds_getD lengths k hk1,
      computeEpisodeEnds_getD lengths (k + 1) hk]
    conv_rhs => rw [List.take_succ, List.sum_append]
    exact Nat.le_add_right _ _
  · intro hne
    have hpos : 0 < lengths.length := List.length_pos.mpr hne
    have h1 : lengths.length - 1 < lengths.length := by omega
    rw [computeEpisodeEnds_getD lengths (lengths.length - 1) h1]
    have : lengths.length - 1 + 1 = lengths.length := by omega
    rw [this, List.take_length]

/-- **C2 witness.** The cumulative-sum invariants evaluated on the concrete
two-episode scenario of the spec (lengths 5 and 3). -/
theorem claim_C2_episode_ends_witness :
    (computeEpisodeEnds [5, 3]).length = [5, 3].length ∧
    (∀ k, k < [5, 3].length →
      (computeEpisodeEnds [5, 3]).getD k 0 -
        (if k = 0 then 0 else (computeEpisodeEnds [5, 3]).getD (k - 1) 0)
        = [5, 3].getD k 0) ∧
    (∀ k, k + 1 < [5, 3].length →
      (computeEpisodeEnds [5, 3]).getD k 0
        ≤ (computeEpisodeEnds [5, 3]).getD (k + 1) 0) ∧
    ([5, 3] ≠ [] →
      (computeEpisodeEnds [5, 3]).getD ([5, 3].length - 1) 0
        = [5, 3].sum) :=
  claim_C2_episode_ends [5, 3]

/-- **C3.** For raw actions of last dimension 7, and for raw actions of last
dimension 14 under the configured rotation representation (output width 6,
i.e. `rotation_6d`), `_convert_actions` keeps position (first 3) and gripper
(7th) of each arm unchanged apart from the float cast, replaces the 3
orientation angles with the configured conversion, re-concatenates
position / converted orientation / gripper per arm, and in the dual-arm case
flattens the two arms back into one row. -/
theorem claim_C3_convert_actions {α : Type} (castF : α → α)
    (rtF : List α → List α) (raw7 raw14 : List (List α))
    (h14 : ∀ r ∈ raw14, r.length = 14)
    (hw : ∀ v : List α, v.length = 3 → (rtF v).length = 6) :
    convert_actions castF rtF raw7 7
      = some (specConvertSingle castF rtF raw7) ∧
    convert_actions castF rtF raw14 14
      = some (specConvertDual castF rtF raw14) := by
  have hfun : convertRow castF rtF = specArmRow castF rtF :=
    funext (convertRow_eq_specArmRow castF rtF)
  constructor
  · simp [convert_actions, specConvertSingle, hfun]
  · have h7R : ∀ r' ∈ (raw14.map (fun r => [r.take 7, r.drop 7])).flatten,
        r'.length = 7 := by
      intro r' hr'
      rw [List.mem_flatten] at hr'
      obtain ⟨l, hl, hr'l⟩ := hr'
      rw [List.mem_map] at hl
      obtain ⟨r, hr, rfl⟩ := hl
      have h14r := h14 r hr
      simp only [List.mem_cons, List.mem_singleton, List.not_mem_nil,
        or_false] at hr'l
      rcases hr'l with rfl | rfl
      · simp [List.length_take, h14r]
      · simp [List.length_drop, h14r]
    have harms : chunkList 7 raw14.flatten
        = (raw14.map (fun r => [r.take 7, r.drop 7])).flatten := by
      conv_lhs => rw [← pair_split_flatten raw14]
      exact chunkList_flatten 7 (by norm_num) _ h7R
    have hdvd14 : 14 ∣ raw14.flatten.length := by
      rw [flatten_length_const 14 raw14 h14]
      exact Dvd.intro _ rfl
    have hconv :
        ((chunkList 7 raw14.flatten).map (convertRow castF rtF)).flatten
          = (raw14.map (fun r => convertRow castF rtF (r.take 7)
              ++ convertRow castF rtF (r.drop 7))).flatten := by
      rw [harms]
      exact dual_conv_flatten _ raw14
    have h20 : ∀ r' ∈ raw14.map (fun r => convertRow castF rtF (r.take 7)
        ++ convertRow castF rtF (r.drop 7)), r'.length = 20 := by
      intro r' hr'
      rw [List.mem_map] at hr'
      obtain ⟨r, hr, rfl⟩ := hr'
      have h14r := h14 r hr
      rw [List.length_append,
        convertRow_length castF rtF hw _ (by simp [List.length_take, h14r]),
        convertRow_length castF rtF hw _ (by simp [List.length_drop, h14r])]
    have hdvd20 : 20 ∣
        ((chunkList 7 raw14.flatten).map (convertRow castF rtF)).flatten.length := by
      rw [hconv, flatten_length_const 20 _ h20]
      exact Dvd.intro _ rfl
    show convert_actions castF rtF raw14 14 = _
    rw [convert_actions]
    simp only [if_pos rfl]
    rw [if_pos hdvd14, if_pos hdvd20, hconv,
      chunkList_flatten 20 (by norm_num) _ h20]
    simp [specConvertDual, hfun]

/-- **C3 witness.** The canonicalizer evaluated on a concrete single-arm and
a concrete dual-arm raw action batch with a width-6 rotation conversion. -/
theorem claim_C3_convert_actions_witness :
    convert_actions sampleCast sampleRot6 sampleRaw7 7
      = some (specConvertSingle sampleCast sampleRot6 sampleRaw7) ∧
    convert_actions sampleCast sampleRot6 sampleRaw14 14
      = some (specConvertDual sampleCast sampleRot6 sampleRaw14) :=
  claim_C3_convert_actions sampleCast sampleRot6 sampleRaw7 sampleRaw14
    (by intro r hr; simp [sampleRaw14] at hr; simp [hr])
    (fun _v _h => rfl)

/-- **C10.** Whenever `_convert_actions` returns on a dual-arm input
(last dimension 14), every returned row has length exactly 20 — the
`reshape(-1,20)` hard-codes the width no matter what width the rotation
representation produced. -/
theorem claim_C10_dual_arm_width_20 {α : Type} (castF : α → α)
    (rtF : List α → List α) (raw out : List (List α))
    (h : convert_actions castF rtF raw 14 = some out) :
    out.map List.length = List.replicate out.length 20 := by
  rw [convert_actions] at h
  simp only [if_pos rfl] at h
  by_cases h14 : 14 ∣ raw.flatten.length
  · rw [if_pos h14] at h
    by_cases h20 : 20 ∣
        ((chunkList 7 raw.flatten).map (convertRow castF rtF)).flatten.length
    · rw [if_pos h20] at h
      have hout := Option.some.inj h
      subst hout
      refine List.eq_replicate_iff.mpr ⟨by simp, ?_⟩
      intro b hb
      rw [List.mem_map] at hb
      obtain ⟨r, hr, rfl⟩ := hb
      exact chunkList_mem_length 20 (by norm_num) _ h20 r hr
    · rw [if_neg h20] at h
      exact absurd h (by simp)
  · rw [if_neg h14] at h
    exact absurd h (by simp)

/-- **C10 witness.** A concrete dual-arm conversion (rotation width 6) whose
returned rows all have length 20. -/
theorem claim_C10_dual_arm_width_20_witness :
    sampleDualOut.map List.length = List.replicate sampleDualOut.length 20 :=
  claim_C10_dual_arm_width_20 sampleCast sampleRot6 sampleRaw14 sampleDualOut
    (by simp [convert_actions, chunkList, convertRow, sampleCast, sampleRot6,
      sampleRaw14, sampleDualOut])

/-- **C6.** Whenever any stored low-dim field's shape differs from
`(steps,) + declared_shape`, or the canonicalized action's shape differs from
`(steps,) + declared_action_shape`, the per-episode loop fails with a
shape-mismatch error at the *first* offending key — every key before it
matched, and nothing after it is processed. -/
theorem claim_C6_shape_mismatch (episodeLength : Nat)
    (lowdimKeys : List String) (fieldShape declaredObs : String → List Nat)
    (convActionShape declaredAction : List Nat)
    (hbad : ∃ k ∈ lowdimKeys ++ ["action"],
      fieldActual fieldShape convActionShape k
        ≠ fieldExpected episodeLength declaredObs declaredAction k) :
    ∃ pre kbad post, lowdimKeys ++ ["action"] = pre ++ kbad :: post ∧
      (∀ k ∈ pre, fieldActual fieldShape convActionShape k
        = fieldExpected episodeLength declaredObs declaredAction k) ∧
      fieldActual fieldShape convActionShape kbad
        ≠ fieldExpected episodeLength declaredObs declaredAction kbad ∧
      processEpisodeFields episodeLength lowdimKeys fieldShape declaredObs
        convActionShape declaredAction = .error kbad :=
  checkFields_first_error _ _ _ hbad

/-- **C6 witness.** A concrete episode whose `agent_pos` field comes back
with shape `(5, 2)` against a declared `(5, 3)`: the loop stops there with a
shape-mismatch error, before the action key is examined. -/
theorem claim_C6_shape_mismatch_witness :
    ∃ pre kbad post,
      sampleLowdimKeys ++ ["action"] = pre ++ kbad :: post ∧
      (∀ k ∈ pre, fieldActual sampleFieldShape sampleConvActionShape k
        = fieldExpected 5 sampleDeclaredObs sampleDeclaredAction k) ∧
      fieldActual sampleFieldShape sampleConvActionShape kbad
        ≠ fieldExpected 5 sampleDeclaredObs sampleDeclaredAction kbad ∧
      processEpisodeFields 5 sampleLowdimKeys sampleFieldShape
        sampleDeclaredObs sampleConvActionShape sampleDeclaredAction
        = .error kbad :=
  claim_C6_shape_mismatch 5 sampleLowdimKeys sampleFieldShape
    sampleDeclaredObs sampleConvActionShape sampleDeclaredAction
    ⟨"agent_pos", by simp [sampleLowdimKeys], by
      simp [fieldActual, fieldExpected, sampleFieldShape, sampleDeclaredObs,
        sampleConvActionShape]⟩

/-- **C9.** The builder counts the files matching `episode_*.hdf5` and then
opens exactly `episode_0 … episode_{N-1}` in ascending index order: when the
distinct matching indices are exactly `0, …, N-1` the loop reads them all in
order, and when they are not contiguous from 0 the loop hits a missing index
`i < N` and fails with the file-open error for `episode_i`. -/
theorem claim_C9_episode_enumeration (present : List Nat)
    (_hnd : present.Nodup) :
    (present.Perm (List.range present.length) →
      convertEpisodeReads present = .ok (List.range present.length)) ∧
    (¬ present.Perm (List.range present.length) →
      ∃ i ∈ List.range present.length, i ∉ present ∧
        convertEpisodeReads present = .error i) := by
  constructor
  · intro hperm
    exact readEpisodesLoop_ok present _ (fun i hi => (hperm.mem_iff).mpr hi)
  · intro hnp
    have hmiss : ∃ i ∈ List.range present.length, i ∉ present := by
      by_contra hall
      push_neg at hall
      have hsub : List.range present.length ⊆ present := fun i hi => hall i hi
      have hsp : List.Subperm (List.range present.length) present :=
        List.subperm_of_subset (List.nodup_range _) hsub
      have hperm : List.range present.length |>.Perm present :=
        hsp.perm_of_length_le (by simp)
      exact hnp hperm.symm
    exact readEpisodesLoop_error present _ hmiss

/-- **C9 witness.** Matching files `episode_0` and `episode_2` (a gap at 1):
the loop counts two files, tries to open `episode_1`, and fails with the
file-open error for index 1. -/
theorem claim_C9_episode_enumeration_witness :
    ∃ i ∈ List.range ([0, 2] : List Nat).length, i ∉ ([0, 2] : List Nat) ∧
      convertEpisodeReads [0, 2] = .error i :=
  (claim_C9_episode_enumeration [0, 2] (by decide)).2 (by decide)

/-- **C4.** The destination compressed-image array is independent of the
concurrency configuration: every `img_copy` task owns its disjoint frame
index, so for any completion order the worker pool can produce (any
permutation of the submitted indices `0, …, n-1`, including the serial order
forced by a max-in-flight cap of 1) the final store is the same, namely frame
`j`'s encoding at index `j`. -/
theorem claim_C4_concurrency_independent {α β : Type} (encode : α → β)
    (frame : Nat → α) (n : Nat) (order : List Nat)
    (hperm : order.Perm (List.range n)) :
    dumpImages encode frame order = dumpImages encode frame (List.range n) ∧
    dumpImages encode frame order = canonicalImageStore encode frame n := by
  have h1 := dumpImages_perm encode frame n order hperm
  have h2 := dumpImages_perm encode frame n (List.range n) (List.Perm.refl _)
  exact ⟨h1.trans h2.symm, h1⟩

/-- **C4 witness.** Three frames completed in the interleaved order
`[2, 0, 1]` produce the same store as the serial order `[0, 1, 2]`. -/
theorem claim_C4_concurrency_independent_witness :
    dumpImages sampleCast sampleFrame [2, 0, 1]
      = dumpImages sampleCast sampleFrame (List.range 3) ∧
    dumpImages sampleCast sampleFrame [2, 0, 1]
      = canonicalImageStore sampleCast sampleFrame 3 :=
  claim_C4_concurrency_independent sampleCast sampleFrame 3 [2, 0, 1]
    (by decide)

/-- **C5.** Every `img_copy` task re-decodes its own write and reports
failure on any exception; the dump loop inspects every completed future
(mid-loop waves and the final wait cover all submitted frames), so it
returns successfully iff every frame's encode-and-re-decode succeeded, and
raises `RuntimeError('Failed to encode image!')` whenever any frame's task
reported failure — a store is never returned past a failed frame. -/
theorem claim_C5_encode_verify_failfast {β : Type} (encodeRes : Nat → Option β)
    (decodeOk : β → Bool) (n : Nat) (batches : List (List Nat))
    (hcover : batches.flatten.Perm (List.range n)) :
    (checkBatches (imgCopyOk encodeRes decodeOk) batches = .ok ()
      ↔ ∀ i, i < n → imgCopyOk encodeRes decodeOk i = true) ∧
    ((∃ i, i < n ∧ imgCopyOk encodeRes decodeOk i = false) →
      checkBatches (imgCopyOk encodeRes decodeOk) batches
        = .error "Failed to encode image!") := by
  constructor
  · rw [checkBatches_ok_iff]
    constructor
    · intro h i hi
      obtain ⟨b, hb, hib⟩ := List.mem_flatten.mp
        (hcover.mem_iff.mpr (List.mem_range.mpr hi))
      exact h b hb i hib
    · intro h b hb i hib
      have : i ∈ batches.flatten := List.mem_flatten.mpr ⟨b, hb, hib⟩
      exact h i (List.mem_range.mp (hcover.mem_iff.mp this))
  · intro ⟨i, hi, hfalse⟩
    obtain ⟨b, hb, hib⟩ := List.mem_flatten.mp
      (hcover.mem_iff.mpr (List.mem_range.mpr hi))
    exact checkBatches_error _ _ ⟨b, hb, i, hib, hfalse⟩

/-- **C5 witness.** Three frames, frame 1's write raising: the completed
batches `[[0], [1, 2]]` cover all frames and the check both refuses to
return success and raises the encode-failure error. -/
theorem claim_C5_encode_verify_failfast_witness :
    (checkBatches (imgCopyOk sampleEncodeRes sampleDecodeOk) sampleBatches
      = .ok () ↔ ∀ i, i < 3 → imgCopyOk sampleEncodeRes sampleDecodeOk i = true) ∧
    ((∃ i, i < 3 ∧ imgCopyOk sampleEncodeRes sampleDecodeOk i = false) →
      checkBatches (imgCopyOk sampleEncodeRes sampleDecodeOk) sampleBatches
        = .error "Failed to encode image!") :=
  claim_C5_encode_verify_failfast sampleEncodeRes sampleDecodeOk 3
    sampleBatches (by decide)

/-- **C7.** Under the legacy (manual) scheme, the action normalizer has
per-dimension scale `1 / max(|min|, |max|)` of the action statistics — one
symmetric bound taken over the statistics, filled into every dimension — and
offset identically zero; a non-legacy scheme raises
`RuntimeError('unsupported')`. -/
theorem claim_C7_action_normalizer (s : ActionStat) (hne : s.statMax ≠ [])
    (hF : List.Forall₂ (· ≤ ·) s.statMin s.statMax) :
    getNormalizerAction true s
      = .ok (List.replicate s.statMax.length (1 / specSymmetricMaxAbs s),
             List.replicate s.statMax.length (0 : ℚ)) ∧
    getNormalizerAction false s = .error "unsupported" := by
  constructor
  · rw [getNormalizerAction, if_pos rfl, normalizer_from_stat_eq s hne hF]
  · rfl

/-- **C7 witness.** The legacy action normalizer evaluated on concrete
statistics `min = [-2, 0]`, `max = [1, 3]` (symmetric bound 3). -/
theorem claim_C7_action_normalizer_witness :
    getNormalizerAction true sampleStat
      = .ok (List.replicate sampleStat.statMax.length
               (1 / specSymmetricMaxAbs sampleStat),
             List.replicate sampleStat.statMax.length (0 : ℚ)) ∧
    getNormalizerAction false sampleStat = .error "unsupported" :=
  claim_C7_action_normalizer sampleStat (by simp [sampleStat])
    (List.Forall₂.cons (by norm_num)
      (List.Forall₂.cons (by norm_num) List.Forall₂.nil))

/-- **C8.** The low-dim normalizer dispatch on the field-name suffix:
position-like suffixes (`pos`, and hence also `qpos`) yield the min-max range
normalizer, the quaternion suffix `quat` yields the identity normalizer, and
any name matching none of the recognized suffixes fails with
`RuntimeError('unsupported')` instead of silently falling back. -/
theorem claim_C8_lowdim_dispatch (key : List Char) :
    (endsWithL posChars key = true ∨ endsWithL qposChars key = true →
      lowdimNormalizerFor key = .ok .rangeNormalizer) ∧
    (endsWithL quatChars key = true →
      lowdimNormalizerFor key = .ok .identityNormalizer) ∧
    (endsWithL posChars key = false → endsWithL quatChars key = false →
      endsWithL qposChars key = false →
      lowdimNormalizerFor key = .error "unsupported") := by
  refine ⟨?_, ?_, ?_⟩
  · intro h
    rcases h with h | h
    · simp [lowdimNormalizerFor, h]
    · simp [lowdimNormalizerFor, qpos_ends_pos h]
  · intro h
    simp [lowdimNormalizerFor, quat_not_pos h, h]
  · intro h1 h2 h3
    simp [lowdimNormalizerFor, h1, h2, h3]

/-- **C8 witness.** The dispatch evaluated on the concrete keys
`eef_pos` (range), `obj_quat` (identity) and `vel` (unsupported). -/
theorem claim_C8_lowdim_dispatch_witness :
    lowdimNormalizerFor ['e', 'e', 'f', '_', 'p', 'o', 's']
      = .ok .rangeNormalizer ∧
    lowdimNormalizerFor ['o', 'b', 'j', '_', 'q', 'u', 'a', 't']
      = .ok .identityNormalizer ∧
    lowdimNormalizerFor ['v', 'e', 'l'] = .error "unsupported" :=
  ⟨(claim_C8_lowdim_dispatch ['e', 'e', 'f', '_', 'p', 'o', 's']).1
      (Or.inl (by decide)),
   (claim_C8_lowdim_dispatch ['o', 'b', 'j', '_', 'q', 'u', 'a', 't']).2.1
      (by decide),
   (claim_C8_lowdim_dispatch ['v', 'e', 'l']).2.2
      (by decide) (by decide) (by decide)⟩

end SapienDataset
